import Mathlib

/-!
Verification of the layered text-buffer core (`src/core/text-buffer.cc`).

The buffer logic that lives in `text-buffer.cc` (layers, clipping through a
patch, chunk iteration, snapshots, coalescence, the surrogate-aware iterator)
is embedded directly from the source.  The collaborators that the source
consumes but does not define (`Point`, `Text`/`TextSlice`, `Patch`,
serializers) are modelled from the specification, as noted on each
definition.
-/

set_option autoImplicit false

namespace TB

/-- Modelled from the spec: `Point {row, column}` over UTF-16 code units
(spec 3.1); the source consumes it from `point.h`. -/
structure Point where
  row : Nat
  column : Nat
deriving DecidableEq, Repr

/-- Modelled from the spec: `traverse(a, b)` — if `b.row == 0` the result is
`(a.row, a.column + b.column)`, else `(a.row + b.row, b.column)` (spec 3.1). -/
def Point.traverse (a b : Point) : Point :=
  if b.row = 0 then ⟨a.row, a.column + b.column⟩ else ⟨a.row + b.row, b.column⟩

/-- Modelled from the spec: `traversal(a, b)` is the inverse of `traverse`
(spec 3.1): the point `p` with `traverse(b, p) = a` whenever `b ≤ a`. -/
def Point.traversal (a b : Point) : Point :=
  if a.row = b.row then ⟨0, a.column - b.column⟩ else ⟨a.row - b.row, a.column⟩

/-- Modelled from the spec: lexicographic strict order on points (spec 3.1). -/
def Point.ltb (a b : Point) : Bool :=
  a.row < b.row || (a.row == b.row && a.column < b.column)

/-- Non-strict lexicographic order on points. -/
def Point.leb (a b : Point) : Bool := !(Point.ltb b a)

/-- Modelled from the spec: `Point::min` returns the smaller point. -/
def Point.minP (a b : Point) : Point := if Point.ltb a b then a else b

/-- `ClipResult {position, offset}` (spec 3.1). -/
structure ClipResult where
  position : Point
  offset : Nat
deriving DecidableEq, Repr

/-- `Range {start, end}` (spec 3.1). -/
structure Range where
  start : Point
  stop : Point
deriving DecidableEq, Repr

/-- Modelled from the spec: `Range::extent() = traversal(end, start)`. -/
def Range.extent (r : Range) : Point := r.stop.traversal r.start

/-- Modelled from the spec: `Text` is a sequence of UTF-16 code units
(spec 6.2); each unit is a `Nat` below `2^16`. -/
abbrev MText := List Nat

/-- Is the code unit a high surrogate (`(c & 0xdc00) == 0xd800`, source
line 406)? -/
def isHighU (c : Nat) : Bool := c &&& 0xdc00 == 0xd800

/-- Is the code unit a low surrogate (`0xdc00 <= c && c <= 0xdfff`, source
line 410)? -/
def isLowU (c : Nat) : Bool := 0xdc00 ≤ c && c ≤ 0xdfff

/-- Does the text start with the given unit? -/
def headIs (t : MText) (u : Nat) : Bool :=
  match t with
  | [] => false
  | c :: _ => c == u

/-- Does the text start with a low surrogate? -/
def headLow (t : MText) : Bool :=
  match t with
  | [] => false
  | c :: _ => isLowU c

/-- Modelled from the spec: a slice's `position_for_offset` (spec 6.2)
walks the code units, counting a row for each LF and a column otherwise. -/
def pfoT : MText → Nat → Point
  | _, 0 => ⟨0, 0⟩
  | [], _ + 1 => ⟨0, 0⟩
  | c :: cs, o + 1 =>
      Point.traverse (if c = 10 then ⟨1, 0⟩ else ⟨0, 1⟩) (pfoT cs o)

/-- Modelled from the spec: `Text::extent()` — the point reached after the
whole text (spec 6.2). -/
def extentT (t : MText) : Point := pfoT t t.length

/-- Modelled from the spec: `Text::clip_position` (spec 6.2, 7, 8.1.6) —
snaps a point to the nearest valid boundary: past-end rows/columns clamp,
a position on the LF of a CRLF pair snaps back onto the CR, and a position
between the two halves of a surrogate pair snaps back onto the high
surrogate.  Returns the snapped point and its code-unit offset. -/
def clipT : MText → Point → ClipResult
  | [], _ => ⟨⟨0, 0⟩, 0⟩
  | c :: cs, p =>
      if p.row = 0 then
        if p.column = 0 then ⟨⟨0, 0⟩, 0⟩
        else if c = 10 then ⟨⟨0, 0⟩, 0⟩
        else if c = 13 ∧ headIs cs 10 then ⟨⟨0, 0⟩, 0⟩
        else if isHighU c ∧ headLow cs then
          if p.column = 1 then ⟨⟨0, 0⟩, 0⟩
          else
            match cs with
            | _ :: cs2 =>
                let q := clipT cs2 ⟨0, p.column - 2⟩
                ⟨Point.traverse ⟨0, 2⟩ q.position, q.offset + 2⟩
            | [] => ⟨⟨0, 0⟩, 0⟩
        else
          let q := clipT cs ⟨0, p.column - 1⟩
          ⟨Point.traverse ⟨0, 1⟩ q.position, q.offset + 1⟩
      else
        if c = 10 then
          let q := clipT cs ⟨p.row - 1, p.column⟩
          ⟨Point.traverse ⟨1, 0⟩ q.position, q.offset + 1⟩
        else
          let q := clipT cs p
          ⟨Point.traverse ⟨0, 1⟩ q.position, q.offset + 1⟩

/-- The canonical offset for a code-unit offset: offsets addressing the LF
of a CRLF pair or the trailing low surrogate of a surrogate pair snap back
by one; all others are already canonical. -/
def canonT : MText → Nat → Nat
  | [], _ => 0
  | _ :: _, 0 => 0
  | c :: cs, o + 1 =>
      if o = 0 ∧ ((c = 13 ∧ headIs cs 10) ∨ (isHighU c ∧ headLow cs)) then 0
      else 1 + canonT cs o

/-- Does offset `o` of `t` address the LF of a CRLF pair or the low
surrogate of a surrogate pair (so that clipping snaps it back by one)? -/
def snapT (t : MText) : Nat → Bool
  | 0 => false
  | o + 1 =>
      match t.get? o, t.get? (o + 1) with
      | some a, some b => (a == 13 && b == 10) || (isHighU a && isLowU b)
      | _, _ => false

/-- Modelled from the spec: `Text::at(Point)` (spec 6.2): the code unit at
the clipped position. -/
def textAt (t : MText) (p : Point) : Nat := t.getD (clipT t p).offset 0

/-- Modelled from the spec: `TextSlice(text).slice(range)` (spec 6.2): the
code units between the clipped offsets of the two range ends. -/
def sliceRange (t : MText) (a b : Point) : MText :=
  (t.take (clipT t b).offset).drop (clipT t a).offset

/-- Modelled from the spec: `TextSlice::prefix(p)` keeps the part of the
slice before point `p` (spec 6.2). -/
def slicePre (t : MText) (p : Point) : MText := t.take (clipT t p).offset

/-- Modelled from the spec: `TextSlice::suffix(p)` keeps the part of the
slice at or after point `p` (spec 6.2). -/
def sliceSuf (t : MText) (p : Point) : MText := t.drop (clipT t p).offset

/-- Modelled from the spec: one `Patch` change record with the fields the
source reads (spec 6.1). -/
structure Change where
  old_start : Point
  old_end : Point
  new_start : Point
  new_end : Point
  old_text_size : Nat
  new_text : MText
  preceding_old_text_size : Nat
  preceding_new_text_size : Nat
deriving DecidableEq, Repr

/-- Modelled from the spec: a `Patch` is its ordered list of changes
(spec 6.1); the splay index is immaterial to the buffer logic. -/
abbrev MPatch := List Change

/-- Modelled from the spec: `Patch::find_change_for_new_position` — the last
change whose `new_start ≤ p` (the "preceding change" of spec 4.1; the
source relies on it also returning a change whose `new_end ≤ p`, as in
`character_at`'s third case). -/
def find_change_for_new_position (l : MPatch) (p : Point) : Option Change :=
  l.foldl (fun acc c => if Point.leb c.new_start p then some c else acc) none

/-- Modelled from the spec: `Patch::change_for_new_position` (spec 6.1);
`src` exhibits no observable difference from the `find_` variant, so both
are modelled by the same preceding-change lookup. -/
def change_for_new_position (l : MPatch) (p : Point) : Option Change :=
  find_change_for_new_position l p

/-- Modelled from the spec: `Patch::find_change_ending_after_new_position` —
the next change whose `new_end > p` (spec 6.1). -/
def find_change_ending_after_new_position (l : MPatch) (p : Point) : Option Change :=
  l.find? (fun c => Point.ltb p c.new_end)

/-- One layer record of the stack (`TextBuffer::Layer`, source lines 27-54):
its patch, the cached extent and size of its view, and its pin count.  The
`is_first`/`is_last` flags and the parent link are represented structurally
by the position of the record in the buffer's layer list. -/
structure Layer where
  patch : MPatch
  extent_ : Point
  size_ : Nat
  snapshot_count : Nat
deriving DecidableEq, Repr

/-- `previous_column` (source line 56). -/
def previous_column (p : Point) : Point := ⟨p.row, p.column - 1⟩

/-- The parent's `size()`: the next layer's cached size, or the base text's
length for the first layer (source: `previous_layer.size()` / `BaseLayer::size`). -/
def parent_size (base : MText) (rest : List Layer) : Nat :=
  match rest with
  | [] => base.length
  | l :: _ => l.size_

/-- `Layer::character_at` (source lines 60-71 and 186-193): the stack of
layers is listed top first; the empty stack is the base text (`BaseLayer`). -/
def character_at (base : MText) : List Layer → Point → Nat
  | [], p => textAt base p
  | l :: rest, p =>
      match find_change_for_new_position l.patch p with
      | none => character_at base rest p
      | some c =>
          if Point.ltb p c.new_end then textAt c.new_text (p.traversal c.new_start)
          else character_at base rest (c.old_end.traverse (p.traversal c.new_end))

/-- `Layer::clip_position` (source lines 73-138 and 195-202).  The Boolean
argument is the layer's `is_last` flag, which selects the patch query for
the head layer; parents are queried with `is_last = false`. -/
def clip_position (base : MText) : List Layer → Bool → Point → ClipResult
  | [], _, p => clipT base p
  | l :: rest, is_last, p =>
      let pc := if is_last then change_for_new_position l.patch p
                else find_change_for_new_position l.patch p
      match pc with
      | none => clip_position base rest false p
      | some c =>
          let baseOff := (clip_position base rest false c.old_start).offset
          let curOff := baseOff + c.preceding_new_text_size - c.preceding_old_text_size
          if Point.ltb p c.new_end then
            let r := clipT c.new_text (p.traversal c.new_start)
            if r.offset = 0 ∧ 0 < c.old_start.column ∧ headIs c.new_text 10 = true ∧
                character_at base rest (previous_column c.old_start) = 13 then
              ⟨previous_column c.new_start, curOff - 1⟩
            else
              ⟨c.new_start.traverse r.position, curOff + r.offset⟩
          else
            let b := clip_position base rest false
              (c.old_end.traverse (p.traversal c.new_end))
            let dOff := b.offset - (baseOff + c.old_text_size)
            if dOff = 0 ∧ b.offset < parent_size base rest then
              let prevChar := if 0 < c.new_text.length then c.new_text.getLast?.getD 0
                else if 0 < c.old_start.column then
                  character_at base rest (previous_column c.old_start)
                else 0
              if prevChar = 13 ∧ character_at base rest b.position = 10 then
                ⟨previous_column c.new_end, curOff + c.new_text.length - 1⟩
              else
                ⟨c.new_end.traverse (b.position.traversal c.old_end),
                  curOff + c.new_text.length + dOff⟩
            else
              ⟨c.new_end.traverse (b.position.traversal c.old_end),
                curOff + c.new_text.length + dOff⟩

/-- The loop body of `Layer::for_each_chunk_in_range_` (source lines
140-184), with the parent's chunk emission given as a function and the
emitted `TextSlice`s collected into a list (the callback is pure, so
collecting the full emission is equivalent to the callback protocol).
The fuel bounds the number of loop turns; the source's loop terminates
because `current_position` strictly increases over the finitely many
changes of a well-formed patch. -/
def chunkGo (pc : Point → Point → List MText) (patch : MPatch) (goal : Point) :
    Nat → Point → Point → Option Change → List MText
  | 0, _, _, _ => []
  | fuel + 1, current, base, chg =>
      if Point.ltb current goal = true then
        let t1 : List MText × Point × Point × Bool :=
          match chg with
          | none => ([], current, base, false)
          | some c =>
              if Point.ltb current c.new_end then
                let slice := sliceSuf (slicePre c.new_text
                    (Point.minP (goal.traversal c.new_start)
                      (c.new_end.traversal c.new_start)))
                  (current.traversal c.new_start)
                if Point.ltb goal c.new_end then ([slice], c.new_end, c.old_end, true)
                else ([slice], c.new_end,
                  c.old_end.traverse (c.new_end.traversal c.new_end), false)
              else ([], current, c.old_end.traverse (current.traversal c.new_end), false)
        match t1 with
        | (em, cur1, base1, brk) =>
            if brk then em
            else
              match find_change_ending_after_new_position patch cur1 with
              | some c2 =>
                  let np := Point.minP goal c2.new_start
                  let nb := Point.minP (base1.traverse (goal.traversal cur1)) c2.old_start
                  em ++ pc base1 nb ++ chunkGo pc patch goal fuel np nb (some c2)
              | none =>
                  let nb := base1.traverse (goal.traversal cur1)
                  em ++ pc base1 nb ++ chunkGo pc patch goal fuel goal nb none
      else []

/-- `Layer::for_each_chunk_in_range` over the stack (source lines 222-230):
the base case is `BaseLayer::for_each_chunk_in_range` (source lines 21-24),
which emits the single slice of the base text covering the range. -/
def chunks_in_range (base : MText) : List Layer → Bool → Point → Point → List MText
  | [], _, s, e => [sliceRange base s e]
  | l :: rest, is_last, s, e =>
      let goal := (clip_position base (l :: rest) is_last e).position
      let cur := (clip_position base (l :: rest) is_last s).position
      chunkGo (fun a b => chunks_in_range base rest false a b) l.patch goal
        (l.patch.length * 2 + 4) cur cur (find_change_for_new_position l.patch cur)

/-- `Layer::text_in_range` (source lines 253-260): concatenate the chunks. -/
def text_in_range (base : MText) (layers : List Layer) (is_last : Bool) (r : Range) : MText :=
  (chunks_in_range base layers is_last r.start r.stop).join

/-- The layer's cached `extent()` (source line 232), or the base text's. -/
def layers_extent (base : MText) (layers : List Layer) : Point :=
  match layers with
  | [] => extentT base
  | l :: _ => l.extent_

/-- The layer's cached `size()` (source line 234), or the base text's. -/
def layers_size (base : MText) (layers : List Layer) : Nat :=
  match layers with
  | [] => base.length
  | l :: _ => l.size_

/-- The chunk callback of `Layer::position_for_offset` (source lines
208-216) as a fold step; the `Bool` is the early-exit flag of the callback
protocol. -/
def pfo_step (goal_offset : Nat) (acc : Point × Nat × Bool) (slice : MText) :
    Point × Nat × Bool :=
  match acc with
  | (pos, off, done) =>
      if done then acc
      else if goal_offset ≤ off + slice.length then
        (pos.traverse (pfoT slice (goal_offset - off)), off, true)
      else (pos.traverse (extentT slice), off + slice.length, false)

/-- `Layer::position_for_offset` (source lines 204-220): fold the chunk
emission of the whole buffer, stopping on the chunk containing the goal
offset. -/
def position_for_offset (base : MText) (layers : List Layer) (is_last : Bool)
    (goal_offset : Nat) : Point :=
  ((chunks_in_range base layers is_last ⟨0, 0⟩ (layers_extent base layers)).foldl
    (pfo_step goal_offset) (⟨0, 0⟩, 0, false)).1

/-- `TextBuffer` (source lines 272-281): the base text and the stack of
layers, listed top first; the last element is the first layer.  All
reachable buffers have a non-empty stack. -/
structure Buffer where
  base_text : MText
  layers : List Layer
deriving DecidableEq, Repr

/-- `TextBuffer::TextBuffer(text)`: one empty first layer over the base. -/
def mkBuffer (t : MText) : Buffer := ⟨t, [⟨[], extentT t, t.length, 0⟩]⟩

/-- `TextBuffer::clip_position` (source lines 370-372): delegate to the top
layer, whose `is_last` flag is true. -/
def Buffer.clip_pos (b : Buffer) (p : Point) : ClipResult :=
  clip_position b.base_text b.layers true p

/-- `TextBuffer::position_for_offset` (source lines 374-376). -/
def Buffer.pfo (b : Buffer) (o : Nat) : Point :=
  position_for_offset b.base_text b.layers true o

/-- `TextBuffer::size` (source lines 344-346). -/
def Buffer.sizeB (b : Buffer) : Nat := layers_size b.base_text b.layers

/-- `TextBuffer::extent` (source lines 340-342). -/
def Buffer.extentB (b : Buffer) : Point := layers_extent b.base_text b.layers

/-- `TextBuffer::text` (source lines 378-380): `text_in_range({Point(), extent()})`. -/
def Buffer.textB (b : Buffer) : MText :=
  text_in_range b.base_text b.layers true ⟨⟨0, 0⟩, b.extentB⟩

/-- The layer a snapshot pins, identified stably by the length `m` of the
stack suffix from the pinned layer down to the first layer (edits replace
the head of the list, so the suffix is unaffected). -/
def snapshot_layers (b : Buffer) (m : Nat) : List Layer :=
  b.layers.drop (b.layers.length - m)

/-- `TextBuffer::Snapshot::text` (source lines 587-589):
`layer.text_in_range({{0, 0}, extent()})`.  The pinned layer's `is_last`
field is true exactly when it is still the buffer's top layer, which is the
case structurally when the pinned suffix is the whole stack. -/
def snapshot_text (b : Buffer) (m : Nat) : MText :=
  text_in_range b.base_text (snapshot_layers b m)
    (decide (m = b.layers.length))
    ⟨⟨0, 0⟩, layers_extent b.base_text (snapshot_layers b m)⟩

/-- `Layer::set_text_in_range` on the buffer's top layer (source lines
236-251 and 394-396).  `Patch::splice` is external (spec 6.1 — "record an
edit"), so it is taken as a function argument; its arguments are passed
exactly as in the source.  The source updates `size_` with unsigned
wrap-around arithmetic; the model uses the reordered `Nat` form, equal to
it whenever the deleted range lies inside the layer. -/
def set_text_in_range (splice : MPatch → Point → Point → Point → MText → Nat → MPatch)
    (b : Buffer) (old_range : Range) (new_text : MText) : Buffer :=
  match b.layers with
  | [] => b
  | l :: rest =>
      let s := clip_position b.base_text (l :: rest) true old_range.start
      let e := clip_position b.base_text (l :: rest) true old_range.stop
      let new_range_end := s.position.traverse (extentT new_text)
      let deleted := e.offset - s.offset
      let ext1 := new_range_end.traverse (l.extent_.traversal old_range.stop)
      let size1 := l.size_ + new_text.length - deleted
      ⟨b.base_text,
        { l with
          patch := splice l.patch old_range.start old_range.extent (extentT new_text)
            new_text deleted,
          extent_ := ext1, size_ := size1 } :: rest⟩

/-- A sequence of edits applied through `TextBuffer::set_text_in_range`. -/
def apply_edits (splice : MPatch → Point → Point → Point → MText → Nat → MPatch)
    (es : List (Range × MText)) (b : Buffer) : Buffer :=
  es.foldl (fun acc e => set_text_in_range splice acc e.1 e.2) b

/-- `TextBuffer::create_snapshot` (source lines 558-569): if the top layer
is not the first and has no changes, pin the layer below it; otherwise pin
the top layer (clearing its `is_last` flag) and push a fresh empty layer
above it.  Returns the new buffer and the pinned layer's suffix length. -/
def create_snapshot (b : Buffer) : Buffer × Nat :=
  match b.layers with
  | [] => (b, 0)
  | l :: rest =>
      if rest ≠ [] ∧ l.patch = [] then
        match rest with
        | p :: rr =>
            (⟨b.base_text, l :: { p with snapshot_count := p.snapshot_count + 1 } :: rr⟩,
              rest.length)
        | [] => (b, 0)
      else
        (⟨b.base_text,
          (⟨[], l.extent_, l.size_, 0⟩ : Layer) ::
            { l with snapshot_count := l.snapshot_count + 1 } :: rest⟩,
          rest.length + 1)

/-- `TextBuffer::reset_base_text` (source lines 283-293): allowed only when
the top layer is the first layer (a single-layer stack); the pin count is
not consulted. -/
def reset_base_text (b : Buffer) (t : MText) : Bool × Buffer :=
  match b.layers with
  | [l] => (true, ⟨t, [{ l with patch := [], extent_ := extentT t, size_ := t.length }]⟩)
  | _ => (false, b)

/-- `TextBuffer::flush_outstanding_changes` (source lines 295-308).
`Text::splice` is external (spec 6.2), so the in-place base-text splice is
taken as a function argument, applied with the source's arguments
`(new_start, old_end.traversal(old_start), new_text)` per change. -/
def flush_outstanding_changes (textSplice : MText → Point → Point → MText → MText)
    (b : Buffer) : Bool × Buffer :=
  match b.layers with
  | [l] =>
      (true,
        ⟨l.patch.foldl (fun txt c =>
            textSplice txt c.new_start (c.old_end.traversal c.old_start) c.new_text)
          b.base_text,
        [{ l with patch := [] }]⟩)
  | _ => (false, b)

/-- `TextBuffer::serialize_outstanding_changes` (source lines 310-316).
The serializer (spec 6.3) is a word list; `Patch::serialize` is external
and taken as a function argument.  Writes the patch, then `size_`, then
`extent_`. -/
def serialize_outstanding_changes (patchSer : MPatch → List Nat) (b : Buffer)
    (ser : List Nat) : Bool × Buffer × List Nat :=
  match b.layers with
  | [l] => (true, b, ser ++ patchSer l.patch ++ [l.size_, l.extent_.row, l.extent_.column])
  | _ => (false, b, ser)

/-- `TextBuffer::deserialize_outstanding_changes` (source lines 318-324):
requires the top layer to be the first AND its patch empty.  The values the
deserializer yields (a patch, a size and an extent, spec 6.3) are taken as
arguments. -/
def deserialize_outstanding_changes (dpatch : MPatch) (dsize : Nat) (dext : Point)
    (b : Buffer) : Bool × Buffer :=
  match b.layers with
  | [l] =>
      if l.patch = [] then
        (true, ⟨b.base_text, [{ l with patch := dpatch, size_ := dsize, extent_ := dext }]⟩)
      else (false, b)
  | _ => (false, b)

/-- Decrement the snapshot count of the layer at the given index. -/
def dec_snapshot_at : List Layer → Nat → List Layer
  | [], _ => []
  | l :: rest, 0 => { l with snapshot_count := l.snapshot_count - 1 } :: rest
  | l :: rest, i + 1 => l :: dec_snapshot_at rest i

/-- The walk of `~Snapshot` (source lines 607-614): starting at the top,
collect every layer whose parent has no snapshots; return the collected
layers (top first, as pushed into `layers_to_remove`) and the surviving
stack headed by the fold target `L`. -/
def collect_removable : List Layer → List Layer × List Layer
  | [] => ([], [])
  | [x] => ([], [x])
  | x :: y :: rest =>
      if y.snapshot_count = 0 then
        let ck := collect_removable (y :: rest)
        (x :: ck.1, ck.2)
      else ([], x :: y :: rest)

/-- The fold loop of `~Snapshot` (source lines 620-627): iterate the
collected layers from `rbegin` to `rend`, combining each patch into the
accumulator and toggling `left_to_right` after every fold. -/
def fold_combine (combine : MPatch → MPatch → Bool → MPatch) :
    MPatch → List MPatch → Bool → MPatch
  | p, [], _ => p
  | p, q :: qs, ltr => fold_combine combine (combine p q ltr) qs (!ltr)

/-- Alternating orientation flags starting from the given one: the fold
directions the spec prescribes for successive coalescence folds. -/
def alt_flags : Bool → Nat → List Bool
  | _, 0 => []
  | f, n + 1 => f :: alt_flags (!f) n

/-- Coalescence as the spec words it (spec 4.4 step 6): fold the upper
layers' patches into the accumulator one at a time, pairing the k-th folded
patch with the k-th orientation of the alternating sequence that starts
left-to-right. -/
def spec_alt_fold (combine : MPatch → MPatch → Bool → MPatch) (p : MPatch)
    (qs : List MPatch) : MPatch :=
  (qs.zip (alt_flags true qs.length)).foldl (fun acc qd => combine acc qd.1 qd.2) p

/-- `TextBuffer::Snapshot::~Snapshot` (source lines 602-631) for the
snapshot pinning the layer with stack-suffix length `m`.  `Patch::combine`
is external (spec 6.1), so it is a function argument.  Decrement the pin;
if the layer is still pinned, or the top layer is pinned, stop; otherwise
collect the removable upper layers, copy the top layer's cached size and
extent into the surviving layer `L`, fold the collected patches into `L`'s
patch with alternating orientation, and discard the folded layers. -/
def snapshot_destroy (combine : MPatch → MPatch → Bool → MPatch) (b : Buffer)
    (m : Nat) : Buffer :=
  let idx := b.layers.length - m
  let ls := dec_snapshot_at b.layers idx
  match ls with
  | [] => ⟨b.base_text, ls⟩
  | top :: _ =>
      if 0 < (ls.getD idx ⟨[], ⟨0, 0⟩, 0, 0⟩).snapshot_count then ⟨b.base_text, ls⟩
      else if 0 < top.snapshot_count then ⟨b.base_text, ls⟩
      else
        match collect_removable ls with
        | (removed, L :: below) =>
            ⟨b.base_text,
              { L with
                size_ := top.size_,
                extent_ := top.extent_,
                patch := fold_combine combine L.patch
                  ((removed.map (fun x => x.patch)).reverse) true } :: below⟩
        | (_, []) => ⟨b.base_text, ls⟩

/-- The surrogate-aware `Iterator` (source lines 399-500) over a flat chunk
list: `pos` is the distance of `chunk_iterator` from `chunk_begin` inside
chunk `chunk_index`. -/
structure SIter where
  chunks : List MText
  chunk_index : Nat
  pos : Nat
deriving DecidableEq, Repr

/-- `Iterator::operator*` (source lines 476-487): at a high surrogate whose
successor is still inside the same chunk, combine the pair into a code
point; otherwise return the raw unit. -/
def SIter.deref (it : SIter) : Nat :=
  let ch := it.chunks.getD it.chunk_index []
  let c := ch.getD it.pos 0
  if isHighU c ∧ it.pos + 1 < ch.length then
    ((c &&& 0x3ff) <<< 10 ||| ((ch.getD (it.pos + 1) 0) &&& 0x3ff)) + 0x10000
  else c

/-- `Iterator::operator--` (source lines 457-474): step back one unit,
crossing to the previous chunk's last unit when at a chunk begin (a no-op
at the very beginning); then step back once more when on a low surrogate
that is not at the chunk begin. -/
def SIter.dec (it : SIter) : SIter :=
  let s1 : SIter :=
    if it.pos = 0 then
      if 0 < it.chunk_index then
        ⟨it.chunks, it.chunk_index - 1, (it.chunks.getD (it.chunk_index - 1) []).length - 1⟩
      else it
    else ⟨it.chunks, it.chunk_index, it.pos - 1⟩
  if s1.pos ≠ 0 ∧ isLowU ((s1.chunks.getD s1.chunk_index []).getD s1.pos 0) then
    ⟨s1.chunks, s1.chunk_index, s1.pos - 1⟩
  else s1


theorem Point.traverse_zero_left (p : Point) : Point.traverse ⟨0, 0⟩ p = p := by
  cases p with
  | mk r c => simp [Point.traverse]; intro h; simp [h]

theorem Point.traversal_zero_right (p : Point) : Point.traversal p ⟨0, 0⟩ = p := by
  cases p with
  | mk r c => simp [Point.traversal]; intro h; simp [h]

theorem Point.traverse_traversal (a b : Point) (h : Point.leb a b = true) :
    Point.traverse a (Point.traversal b a) = b := by
  cases a with
  | mk ar ac =>
    cases b with
    | mk br bc =>
      simp [Point.leb, Point.ltb] at h
      rcases Nat.lt_or_ge ar br with h1 | h1
      · have hne : ¬ br = ar := by omega
        have hz : ¬ (br - ar = 0) := by omega
        simp [Point.traversal, Point.traverse, hne, hz]
        omega
      · have har : ar = br := by omega
        subst har
        have hc : ac ≤ bc := by omega
        simp [Point.traversal, Point.traverse]
        omega

theorem pfoT_zero (t : MText) : pfoT t 0 = ⟨0, 0⟩ := by
  cases t <;> simp [pfoT]

theorem pfoT_succ (c : Nat) (cs : MText) (o : Nat) :
    pfoT (c :: cs) (o + 1) =
      Point.traverse (if c = 10 then ⟨1, 0⟩ else ⟨0, 1⟩) (pfoT cs o) := by
  simp [pfoT]

theorem traverse_10 (p : Point) : Point.traverse ⟨1, 0⟩ p = ⟨p.row + 1, p.column⟩ := by
  cases p with
  | mk r c =>
    simp [Point.traverse]
    by_cases h : r = 0 <;> simp [h] <;> omega

theorem traverse_01 (p : Point) :
    Point.traverse ⟨0, 1⟩ p = if p.row = 0 then ⟨0, p.column + 1⟩ else p := by
  cases p with
  | mk r c =>
    by_cases h : r = 0 <;> simp [Point.traverse, h] <;> omega

theorem traverse_02 (p : Point) :
    Point.traverse ⟨0, 2⟩ p = Point.traverse ⟨0, 1⟩ (Point.traverse ⟨0, 1⟩ p) := by
  cases p with
  | mk r c =>
    by_cases h : r = 0 <;> simp [Point.traverse, h] <;> omega

theorem canonT_zero (t : MText) : canonT t 0 = 0 := by
  cases t <;> simp [canonT]

theorem isLowU_bounds {c : Nat} (h : isLowU c = true) : 0xdc00 ≤ c ∧ c ≤ 0xdfff := by
  simpa [isLowU] using h

theorem isHighU_of_isLowU {c : Nat} (h : isLowU c = true) : isHighU c = false := by
  obtain ⟨h1, h2⟩ := isLowU_bounds h
  have h3 : c.testBit 10 = true := by
    rw [Nat.testBit_to_div_mod]
    simp only [Nat.pow_succ, Nat.pow_zero]
    norm_num
    omega
  have hb : (c &&& 0xdc00).testBit 10 = true := by
    rw [Nat.testBit_land, h3]
    decide
  by_contra hne
  simp only [Bool.not_eq_false, isHighU, beq_iff_eq] at hne
  rw [hne] at hb
  have hd : (0xd800 : Nat).testBit 10 = false := by decide
  rw [hd] at hb
  exact Bool.false_ne_true hb

theorem clipT_zeroP (t : MText) : clipT t ⟨0, 0⟩ = ⟨⟨0, 0⟩, 0⟩ := by
  cases t with
  | nil => rfl
  | cons c cs =>
    rw [clipT.eq_def]
    simp

theorem clipT_row0_crlf (c : Nat) (cs : MText) (col : Nat)
    (h2 : col ≠ 0) (h3 : c = 13) (h4 : headIs cs 10 = true) :
    clipT (c :: cs) ⟨0, col⟩ = ⟨⟨0, 0⟩, 0⟩ := by
  subst h3
  rw [clipT.eq_def]
  simp [h2, h4]

theorem clipT_row0_pair_one (c c2 : Nat) (cs2 : MText) (col : Nat)
    (h2 : col = 1) (h3 : isHighU c = true) (h4 : isLowU c2 = true) :
    clipT (c :: c2 :: cs2) ⟨0, col⟩ = ⟨⟨0, 0⟩, 0⟩ := by
  subst h2
  have hc10 : ¬ c = 10 := by
    intro h
    subst h
    exact absurd h3 (by decide)
  have hc13 : ¬ (c = 13 ∧ headIs (c2 :: cs2) 10 = true) := by
    rintro ⟨h, -⟩
    subst h
    exact absurd h3 (by decide)
  rw [clipT.eq_def]
  simp [hc10, hc13, h3, headLow, h4]

theorem clipT_row0_pair (c c2 : Nat) (cs2 : MText) (col : Nat)
    (h2 : col ≠ 0) (h2b : col ≠ 1)
    (h3 : isHighU c = true) (h4 : isLowU c2 = true) :
    clipT (c :: c2 :: cs2) ⟨0, col⟩ =
      ⟨Point.traverse ⟨0, 2⟩ (clipT cs2 ⟨0, col - 2⟩).position,
        (clipT cs2 ⟨0, col - 2⟩).offset + 2⟩ := by
  have hc10 : ¬ c = 10 := by
    intro h
    subst h
    exact absurd h3 (by decide)
  have hc13 : ¬ (c = 13 ∧ headIs (c2 :: cs2) 10 = true) := by
    rintro ⟨h, -⟩
    subst h
    exact absurd h3 (by decide)
  rw [clipT.eq_def]
  simp [h2, h2b, hc10, hc13, h3, headLow, h4]

theorem clipT_row0_ord (c : Nat) (cs : MText) (col : Nat)
    (h2 : col ≠ 0) (h3 : c ≠ 10)
    (h4 : ¬ (c = 13 ∧ headIs cs 10 = true))
    (h5 : ¬ (isHighU c = true ∧ headLow cs = true)) :
    clipT (c :: cs) ⟨0, col⟩ =
      ⟨Point.traverse ⟨0, 1⟩ (clipT cs ⟨0, col - 1⟩).position,
        (clipT cs ⟨0, col - 1⟩).offset + 1⟩ := by
  rw [clipT.eq_def]
  simp [h2, h3, h4, h5]

theorem clipT_rowpos_nl (cs : MText) (r col : Nat) (h : r ≠ 0) :
    clipT (10 :: cs) ⟨r, col⟩ =
      ⟨Point.traverse ⟨1, 0⟩ (clipT cs ⟨r - 1, col⟩).position,
        (clipT cs ⟨r - 1, col⟩).offset + 1⟩ := by
  rw [clipT.eq_def]
  simp [h]

theorem clipT_rowpos_ord (c : Nat) (cs : MText) (p : Point)
    (h : p.row ≠ 0) (hc : c ≠ 10) :
    clipT (c :: cs) p =
      ⟨Point.traverse ⟨0, 1⟩ (clipT cs p).position, (clipT cs p).offset + 1⟩ := by
  rw [clipT.eq_def]
  simp [h, hc]

theorem canonT_succ_nosnap (c : Nat) (cs : MText) (o : Nat)
    (h : ¬ (o = 0 ∧ ((c = 13 ∧ headIs cs 10 = true) ∨ (isHighU c = true ∧ headLow cs = true)))) :
    canonT (c :: cs) (o + 1) = 1 + canonT cs o := by
  simp only [canonT]
  rw [if_neg]
  simpa using h

theorem canonT_succ_snap (c : Nat) (cs : MText)
    (h : (c = 13 ∧ headIs cs 10 = true) ∨ (isHighU c = true ∧ headLow cs = true)) :
    canonT (c :: cs) 1 = 0 := by
  simp only [canonT]
  exact if_pos ⟨trivial, h⟩

/-- The offset-to-point-to-clip round trip: clipping the point of offset `o`
yields the canonical form of `o` (strong induction on the text length). -/
theorem clip_pfo_aux : ∀ (n : Nat) (t : MText), t.length ≤ n → ∀ o : Nat, o ≤ t.length →
    clipT t (pfoT t o) = ⟨pfoT t (canonT t o), canonT t o⟩ := by
  intro n
  induction n with
  | zero =>
    intro t ht o ho
    have ht0 : t = [] := List.eq_nil_of_length_eq_zero (Nat.le_zero.mp ht)
    subst ht0
    have ho0 : o = 0 := by simpa using ho
    subst ho0
    simp [pfoT, clipT, canonT]
  | succ n ih =>
    intro t ht o ho
    cases t with
    | nil =>
      have ho0 : o = 0 := by simpa using ho
      subst ho0
      simp [pfoT, clipT, canonT]
    | cons c cs =>
      cases o with
      | zero =>
        rw [canonT_zero, pfoT_zero, clipT_zeroP]
      | succ o =>
        have hlen : cs.length ≤ n := by simpa using ht
        have ho2 : o ≤ cs.length := by simpa using ho
        have hIH := ih cs hlen o ho2
        by_cases hc : c = 10
        · subst hc
          have hcan : canonT (10 :: cs) (o + 1) = 1 + canonT cs o := by
            apply canonT_succ_nosnap
            rintro ⟨-, hpat | hpat⟩
            · exact absurd hpat.1 (by decide)
            · exact absurd hpat.1 (by decide)
          rw [pfoT_succ, if_pos rfl, traverse_10, clipT_rowpos_nl cs _ _ (by simp)]
          rw [Nat.add_sub_cancel]
          rw [show (⟨(pfoT cs o).row, (pfoT cs o).column⟩ : Point) = pfoT cs o from rfl]
          rw [hIH, hcan, Nat.add_comm 1 (canonT cs o), pfoT_succ, if_pos rfl]
        · by_cases hr : (pfoT cs o).row = 0
          · -- the head unit keeps the position on row 0
            have hp : pfoT (c :: cs) (o + 1) = ⟨0, (pfoT cs o).column + 1⟩ := by
              rw [pfoT_succ, if_neg hc, traverse_01, if_pos hr]
            by_cases hcr : c = 13 ∧ headIs cs 10 = true
            · -- CRLF head: only reachable with o = 0
              have ho0 : o = 0 := by
                by_contra hne
                obtain ⟨o2, rfl⟩ := Nat.exists_eq_succ_of_ne_zero hne
                obtain ⟨c2, cs2, rfl⟩ : ∃ c2 cs2, cs = c2 :: cs2 := by
                  cases cs with
                  | nil => exact absurd hcr.2 (by simp [headIs])
                  | cons c2 cs2 => exact ⟨c2, cs2, rfl⟩
                have hc2 : c2 = 10 := by
                  have h6 := hcr.2
                  simpa [headIs] using h6
                subst hc2
                rw [pfoT_succ, if_pos rfl, traverse_10] at hr
                simp at hr
              subst ho0
              have hcan : canonT (c :: cs) 1 = 0 := canonT_succ_snap c cs (Or.inl hcr)
              rw [hcan, hp, pfoT_zero, pfoT_zero]
              exact clipT_row0_crlf c cs _ (by simp) hcr.1 hcr.2
            · by_cases hsur : isHighU c = true ∧ headLow cs = true
              · -- surrogate-pair head
                obtain ⟨c2, cs2, rfl⟩ : ∃ c2 cs2, cs = c2 :: cs2 := by
                  cases cs with
                  | nil => exact absurd hsur.2 (by simp [headLow])
                  | cons c2 cs2 => exact ⟨c2, cs2, rfl⟩
                have hlow : isLowU c2 = true := by
                  have h6 := hsur.2
                  simpa [headLow] using h6
                have hc2ne : c2 ≠ 10 := by
                  obtain ⟨hb1, hb2⟩ := isLowU_bounds hlow
                  omega
                cases o with
                | zero =>
                  have hcan : canonT (c :: c2 :: cs2) 1 = 0 :=
                    canonT_succ_snap _ _ (Or.inr hsur)
                  rw [hcan, hp, pfoT_zero, pfoT_zero]
                  exact clipT_row0_pair_one c c2 cs2 _ (by simp) hsur.1 hlow
                | succ o =>
                  -- two-unit step: the inner position is on row 0 as well
                  have h0 : (pfoT cs2 o).row = 0 := by
                    by_contra h0
                    rw [pfoT_succ, if_neg hc2ne, traverse_01, if_neg h0] at hr
                    exact h0 hr
                  have hp2 : pfoT (c2 :: cs2) (o + 1) = ⟨0, (pfoT cs2 o).column + 1⟩ := by
                    rw [pfoT_succ, if_neg hc2ne, traverse_01, if_pos h0]
                  have hcol : (pfoT (c2 :: cs2) (o + 1)).column = (pfoT cs2 o).column + 1 := by
                    rw [hp2]
                  have hlen2 : cs2.length ≤ n := by
                    simp at ht
                    omega
                  have ho3 : o ≤ cs2.length := by
                    simp at ho2
                    omega
                  have hIH2 := ih cs2 hlen2 o ho3
                  have hcs2nosnap : canonT (c2 :: cs2) (o + 1) = 1 + canonT cs2 o := by
                    apply canonT_succ_nosnap
                    rintro ⟨-, hpat | hpat⟩
                    · obtain ⟨hb1, hb2⟩ := isLowU_bounds hlow
                      omega
                    · rw [isHighU_of_isLowU hlow] at hpat
                      exact absurd hpat.1 (by decide)
                  have hcan : canonT (c :: c2 :: cs2) (o + 1 + 1) = canonT cs2 o + 2 := by
                    rw [canonT_succ_nosnap _ _ _ (by rintro ⟨h, -⟩; exact absurd h (by omega)),
                      hcs2nosnap]
                    omega
                  rw [hp, hcan]
                  rw [clipT_row0_pair c c2 cs2 _ (by simp) (by rw [hcol]; omega) hsur.1 hlow]
                  have harg : (⟨0, (pfoT (c2 :: cs2) (o + 1)).column + 1 - 2⟩ : Point) =
                      pfoT cs2 o := by
                    rw [hcol]
                    have h6 : (pfoT cs2 o).column + 1 + 1 - 2 = (pfoT cs2 o).column := by omega
                    rw [h6]
                    cases hpp : pfoT cs2 o with
                    | mk r cc =>
                      rw [hpp] at h0
                      simp at h0
                      simp [h0]
                  rw [harg, hIH2]
                  have h7 : canonT cs2 o + 2 = canonT cs2 o + 1 + 1 := by omega
                  rw [h7, pfoT_succ, if_neg hc, pfoT_succ, if_neg hc2ne, traverse_02]
              · -- ordinary unit on row 0
                have hcan : canonT (c :: cs) (o + 1) = 1 + canonT cs o := by
                  apply canonT_succ_nosnap
                  rintro ⟨-, hpat⟩
                  exact absurd hpat (by
                    rintro (h | h)
                    · exact hcr ⟨h.1, h.2⟩
                    · exact hsur ⟨h.1, h.2⟩)
                rw [hp, hcan, clipT_row0_ord c cs _ (by simp) hc hcr hsur]
                have harg : (⟨0, (pfoT cs o).column + 1 - 1⟩ : Point) = pfoT cs o := by
                  have h6 : (pfoT cs o).column + 1 - 1 = (pfoT cs o).column := by omega
                  rw [h6]
                  cases hpp : pfoT cs o with
                  | mk r cc =>
                    rw [hpp] at hr
                    simp at hr
                    simp [hr]
                rw [harg, hIH, Nat.add_comm 1 (canonT cs o), pfoT_succ, if_neg hc]
          · -- the position is past row 0: the head unit is merely skipped
            have ho0 : o ≠ 0 := by
              intro h
              subst h
              rw [pfoT_zero] at hr
              exact hr rfl
            have hp : pfoT (c :: cs) (o + 1) = pfoT cs o := by
              rw [pfoT_succ, if_neg hc, traverse_01, if_neg hr]
            have hcan : canonT (c :: cs) (o + 1) = 1 + canonT cs o := by
              apply canonT_succ_nosnap
              rintro ⟨h, -⟩
              exact ho0 h
            rw [hp, hcan, clipT_rowpos_ord c cs _ hr hc, hIH,
              Nat.add_comm 1 (canonT cs o), pfoT_succ, if_neg hc]

/-- The round trip, stated without the auxiliary bound. -/
theorem clip_pfoT (t : MText) (o : Nat) (ho : o ≤ t.length) :
    clipT t (pfoT t o) = ⟨pfoT t (canonT t o), canonT t o⟩ :=
  clip_pfo_aux t.length t (Nat.le_refl _) o ho

theorem canonT_eq_snap : ∀ (t : MText) (o : Nat), o ≤ t.length →
    canonT t o = if snapT t o then o - 1 else o := by
  intro t
  induction t with
  | nil =>
    intro o ho
    have ho0 : o = 0 := by simpa using ho
    subst ho0
    simp [canonT, snapT]
  | cons c cs ih =>
    intro o ho
    cases o with
    | zero => simp [canonT, snapT]
    | succ o =>
      cases o with
      | zero =>
        by_cases hP : (c = 13 ∧ headIs cs 10 = true) ∨ (isHighU c = true ∧ headLow cs = true)
        · rw [canonT_succ_snap c cs hP]
          have hs : snapT (c :: cs) 1 = true := by
            cases cs with
            | nil =>
              rcases hP with ⟨-, h2⟩ | ⟨-, h2⟩ <;> simp [headIs, headLow] at h2
            | cons c2 cs2 =>
              simp only [snapT, List.get?]
              rcases hP with ⟨h1, h2⟩ | ⟨h1, h2⟩
              · subst h1
                simp [headIs] at h2
                simp [h2]
              · simp [headLow] at h2
                simp [h1, h2]
          rw [hs]
          simp
        · rw [canonT_succ_nosnap c cs 0 (by simpa using fun h => hP h)]
          have hs : snapT (c :: cs) 1 = false := by
            cases cs with
            | nil => simp [snapT]
            | cons c2 cs2 =>
              simp only [snapT, List.get?]
              rw [Bool.or_eq_false_iff]
              constructor
              · rw [Bool.and_eq_false_iff]
                by_cases h13 : c = 13
                · subst h13
                  right
                  by_cases h10 : c2 = 10
                  · subst h10
                    exact absurd (Or.inl ⟨rfl, by simp [headIs]⟩) hP
                  · simpa using h10
                · left
                  simpa using h13
              · rw [Bool.and_eq_false_iff]
                by_cases hhg : isHighU c = true
                · right
                  by_cases hlw : isLowU c2 = true
                  · exact absurd (Or.inr ⟨hhg, by simp [headLow, hlw]⟩) hP
                  · simpa using hlw
                · left
                  simpa using hhg
          rw [hs, canonT_zero]
          simp
      | succ o =>
        have hcs : o + 1 ≤ cs.length := by simpa using ho
        have hcan : canonT (c :: cs) (o + 1 + 1) = 1 + canonT cs (o + 1) := by
          apply canonT_succ_nosnap
          rintro ⟨h, -⟩
          exact absurd h (by omega)
        have hsnap : snapT (c :: cs) (o + 1 + 1) = snapT cs (o + 1) := by
          simp [snapT, List.get?]
        rw [hcan, hsnap, ih (o + 1) hcs]
        by_cases h : snapT cs (o + 1) = true <;> simp [h] <;> omega

theorem snapT_length (t : MText) : snapT t t.length = false := by
  cases hl : t.length with
  | zero => simp [snapT]
  | succ o =>
    have hn : t.get? (o + 1) = none := by
      rw [List.get?_eq_none]
      omega
    simp only [snapT, hn]
    cases t.get? o <;> rfl

theorem canonT_length (t : MText) : canonT t t.length = t.length := by
  rw [canonT_eq_snap t t.length (Nat.le_refl _), snapT_length]
  simp

theorem clipT_extentT (t : MText) : clipT t (extentT t) = ⟨extentT t, t.length⟩ := by
  have h := clip_pfoT t t.length (Nat.le_refl _)
  rw [canonT_length] at h
  exact h


theorem find_change_nil (p : Point) : find_change_for_new_position [] p = none := rfl

theorem find_ending_nil (p : Point) : find_change_ending_after_new_position [] p = none := rfl

theorem ltb_self (p : Point) : Point.ltb p p = false := by
  simp [Point.ltb]

/-- C9: dereferencing the surrogate-aware iterator at a high surrogate that
is the last code unit of its chunk returns the raw high-surrogate unit;
the first unit of the next chunk is never consulted, so a surrogate pair
split across a chunk boundary is not combined. -/
theorem C9_deref_split_pair_not_combined (it : SIter)
    (h1 : it.pos + 1 = (it.chunks.getD it.chunk_index []).length)
    (h2 : isHighU ((it.chunks.getD it.chunk_index []).getD it.pos 0) = true) :
    it.deref = (it.chunks.getD it.chunk_index []).getD it.pos 0 := by
  unfold SIter.deref
  rw [if_neg]
  rintro ⟨-, hlt⟩
  omega

theorem C9_witness :
    (⟨[[0xD83D], [0xDE01]], 0, 0⟩ : SIter).deref = 0xD83D ∧
      isLowU ((([[0xD83D], [0xDE01]] : List MText).getD 1 []).getD 0 0) = true :=
  ⟨C9_deref_split_pair_not_combined ⟨[[0xD83D], [0xDE01]], 0, 0⟩ (by decide) (by decide),
    by decide⟩

/-- C10: decrementing the surrogate-aware iterator positioned at the first
code unit of the first chunk is a no-op: the iterator is returned
unchanged. -/
theorem C10_dec_at_origin_noop (chunks : List MText) :
    SIter.dec ⟨chunks, 0, 0⟩ = ⟨chunks, 0, 0⟩ := by
  simp [SIter.dec]

/-- C4: `character_at` obeys the three-case rule: with no change located
for the position, delegate to the parent at the same position; inside a
located change's inserted text (`position < new_end`), index `new_text` at
`position − new_start`; at or past `new_end` of the located change,
delegate to the parent at `old_end.traverse(position − new_end)`. -/
theorem C4_character_at_three_cases (base : MText) (l : Layer) (rest : List Layer)
    (p : Point) :
    (find_change_for_new_position l.patch p = none →
      character_at base (l :: rest) p = character_at base rest p) ∧
    (∀ c : Change, find_change_for_new_position l.patch p = some c →
      Point.ltb p c.new_end = true →
      character_at base (l :: rest) p = textAt c.new_text (p.traversal c.new_start)) ∧
    (∀ c : Change, find_change_for_new_position l.patch p = some c →
      Point.ltb p c.new_end = false →
      character_at base (l :: rest) p =
        character_at base rest (c.old_end.traverse (p.traversal c.new_end))) := by
  refine ⟨?_, ?_, ?_⟩
  · intro h
    simp [character_at, h]
  · intro c h hlt
    simp [character_at, h, hlt]
  · intro c h hlt
    simp [character_at, h, hlt]

theorem C4_witness :
    (character_at [97, 98, 99]
        [⟨[⟨⟨0, 1⟩, ⟨0, 2⟩, ⟨0, 1⟩, ⟨0, 3⟩, 1, [66, 66], 0, 0⟩], ⟨0, 4⟩, 4, 0⟩] ⟨0, 0⟩ =
      character_at [97, 98, 99] [] ⟨0, 0⟩) ∧
    (character_at [97, 98, 99]
        [⟨[⟨⟨0, 1⟩, ⟨0, 2⟩, ⟨0, 1⟩, ⟨0, 3⟩, 1, [66, 66], 0, 0⟩], ⟨0, 4⟩, 4, 0⟩] ⟨0, 2⟩ =
      textAt [66, 66] ((⟨0, 2⟩ : Point).traversal ⟨0, 1⟩)) ∧
    (character_at [97, 98, 99]
        [⟨[⟨⟨0, 1⟩, ⟨0, 2⟩, ⟨0, 1⟩, ⟨0, 3⟩, 1, [66, 66], 0, 0⟩], ⟨0, 4⟩, 4, 0⟩] ⟨0, 3⟩ =
      character_at [97, 98, 99] []
        ((⟨0, 2⟩ : Point).traverse ((⟨0, 3⟩ : Point).traversal ⟨0, 3⟩))) := by
  have hNone := (C4_character_at_three_cases [97, 98, 99]
    ⟨[⟨⟨0, 1⟩, ⟨0, 2⟩, ⟨0, 1⟩, ⟨0, 3⟩, 1, [66, 66], 0, 0⟩], ⟨0, 4⟩, 4, 0⟩ [] ⟨0, 0⟩).1
  have hIn := (C4_character_at_three_cases [97, 98, 99]
    ⟨[⟨⟨0, 1⟩, ⟨0, 2⟩, ⟨0, 1⟩, ⟨0, 3⟩, 1, [66, 66], 0, 0⟩], ⟨0, 4⟩, 4, 0⟩ [] ⟨0, 2⟩).2.1
  have hPast := (C4_character_at_three_cases [97, 98, 99]
    ⟨[⟨⟨0, 1⟩, ⟨0, 2⟩, ⟨0, 1⟩, ⟨0, 3⟩, 1, [66, 66], 0, 0⟩], ⟨0, 4⟩, 4, 0⟩ [] ⟨0, 3⟩).2.2
  exact ⟨hNone (by decide),
    hIn ⟨⟨0, 1⟩, ⟨0, 2⟩, ⟨0, 1⟩, ⟨0, 3⟩, 1, [66, 66], 0, 0⟩ (by decide) (by decide),
    hPast ⟨⟨0, 1⟩, ⟨0, 2⟩, ⟨0, 1⟩, ⟨0, 3⟩, 1, [66, 66], 0, 0⟩ (by decide) (by decide)⟩

/-- C5: in `clip_position`, when the clipped position falls at the very
start of a located change's inserted text (local clip offset 0), the
change's `old_start.column` is positive, the first code unit of `new_text`
is LF, and the parent character immediately before `old_start` is CR, the
result is `(previous_column(new_start), current_offset − 1)`: the LF at
the insertion boundary is absorbed into the preceding CR of the parent. -/
theorem C5_clip_crlf_stitch_at_insertion_start (base : MText) (l : Layer)
    (rest : List Layer) (is_last : Bool) (p : Point) (c : Change)
    (hfind : (if is_last then change_for_new_position l.patch p
        else find_change_for_new_position l.patch p) = some c)
    (hin : Point.ltb p c.new_end = true)
    (hoff : (clipT c.new_text (p.traversal c.new_start)).offset = 0)
    (hcol : 0 < c.old_start.column)
    (hnl : headIs c.new_text 10 = true)
    (hcr : character_at base rest (previous_column c.old_start) = 13) :
    clip_position base (l :: rest) is_last p =
      ⟨previous_column c.new_start,
        (clip_position base rest false c.old_start).offset +
          c.preceding_new_text_size - c.preceding_old_text_size - 1⟩ := by
  simp only [clip_position]
  rw [hfind]
  simp [hin, hoff, hcol, hnl, hcr]

theorem C5_witness :
    clip_position [97, 13]
        [⟨[⟨⟨0, 2⟩, ⟨0, 2⟩, ⟨0, 2⟩, ⟨1, 1⟩, 0, [10, 66], 0, 0⟩], ⟨1, 1⟩, 4, 0⟩]
        true ⟨0, 2⟩ =
      ⟨previous_column ⟨0, 2⟩,
        (clip_position [97, 13] [] false ⟨0, 2⟩).offset + 0 - 0 - 1⟩ :=
  C5_clip_crlf_stitch_at_insertion_start [97, 13]
    ⟨[⟨⟨0, 2⟩, ⟨0, 2⟩, ⟨0, 2⟩, ⟨1, 1⟩, 0, [10, 66], 0, 0⟩], ⟨1, 1⟩, 4, 0⟩ [] true ⟨0, 2⟩
    ⟨⟨0, 2⟩, ⟨0, 2⟩, ⟨0, 2⟩, ⟨1, 1⟩, 0, [10, 66], 0, 0⟩
    (by decide) (by decide) (by decide) (by decide) (by decide) (by decide)


theorem leb_zero (p : Point) : Point.leb ⟨0, 0⟩ p = true := by
  simp [Point.leb, Point.ltb]

theorem point_eq_of_leb_not_ltb {a b : Point} (h1 : Point.leb a b = true)
    (h2 : Point.ltb a b = false) : a = b := by
  cases a with
  | mk ar ac =>
    cases b with
    | mk br bc =>
      simp [Point.leb, Point.ltb] at h1 h2
      have h3 : ar = br := by omega
      subst h3
      have h4 : ac = bc := by omega
      subst h4
      rfl

theorem chunks_nil (base : MText) (flag : Bool) (s e : Point) :
    chunks_in_range base [] flag s e = [sliceRange base s e] := rfl

theorem chunks_cons (base : MText) (l : Layer) (rest : List Layer) (flag : Bool)
    (s e : Point) :
    chunks_in_range base (l :: rest) flag s e =
      chunkGo (fun a b => chunks_in_range base rest false a b) l.patch
        (clip_position base (l :: rest) flag e).position
        (l.patch.length * 2 + 4)
        (clip_position base (l :: rest) flag s).position
        (clip_position base (l :: rest) flag s).position
        (find_change_for_new_position l.patch
          (clip_position base (l :: rest) flag s).position) := rfl

theorem clip_empty_head (base : MText) (l : Layer) (P : List Layer) (flag : Bool)
    (hp : l.patch = []) (p : Point) :
    clip_position base (l :: P) flag p = clip_position base P false p := by
  cases flag <;>
    simp [clip_position, hp, change_for_new_position, find_change_for_new_position]

theorem chunkGo_nil_patch (pc : Point → Point → List MText) (goal cur : Point)
    (fuel : Nat) :
    chunkGo pc [] goal (fuel + 2) cur cur none =
      if Point.ltb cur goal = true then
        pc cur (cur.traverse (goal.traversal cur))
      else [] := by
  by_cases h : Point.ltb cur goal = true
  · simp [chunkGo, h, ltb_self, find_ending_nil]
  · simp [chunkGo, h]

theorem sliceRange_whole (t : MText) : sliceRange t ⟨0, 0⟩ (extentT t) = t := by
  simp [sliceRange, clipT_zeroP, clipT_extentT]

theorem eq_zero_of_not_ltb_zero {p : Point} (h : Point.ltb ⟨0, 0⟩ p = false) :
    p = ⟨0, 0⟩ := by
  cases p with
  | mk r c =>
    simp [Point.ltb] at h
    have h1 : r = 0 := by omega
    subst h1
    have h2 : c = 0 := by omega
    subst h2
    rfl

/-- The empty-patch top layer is transparent for whole-extent text reads:
the text through `l :: P` over the range `[(0,0), l.extent_]` equals the
text through `P` over its own whole extent, provided the cached extents
agree and `P`'s clipping is idempotent at the two range ends. -/
theorem text_empty_head (base : MText) (l : Layer) (P : List Layer) (flag : Bool)
    (hp : l.patch = [])
    (hext : l.extent_ = layers_extent base P)
    (hc0 : clip_position base P false (clip_position base P false ⟨0, 0⟩).position =
      clip_position base P false ⟨0, 0⟩)
    (hcE : clip_position base P false
        (clip_position base P false (layers_extent base P)).position =
      clip_position base P false (layers_extent base P))
    (hle : Point.leb (clip_position base P false ⟨0, 0⟩).position
        (clip_position base P false (layers_extent base P)).position = true) :
    text_in_range base (l :: P) flag ⟨⟨0, 0⟩, l.extent_⟩ =
      text_in_range base P false ⟨⟨0, 0⟩, layers_extent base P⟩ := by
  unfold text_in_range
  rw [chunks_cons]
  rw [clip_empty_head base l P flag hp, clip_empty_head base l P flag hp, hext, hp]
  set c0 := (clip_position base P false ⟨0, 0⟩).position with hc0def
  set g := (clip_position base P false (layers_extent base P)).position with hgdef
  have hfuel : ([] : MPatch).length * 2 + 4 = 2 + 2 := by simp
  rw [find_change_nil, hfuel, chunkGo_nil_patch]
  by_cases hlt : Point.ltb c0 g = true
  · rw [if_pos hlt]
    rw [Point.traverse_traversal c0 g hle]
    cases P with
    | nil =>
        rw [chunks_nil, chunks_nil]
        simp only [List.join]
        have hq0 : clipT base c0 = clipT base ⟨0, 0⟩ := hc0
        have hqE : clipT base g = clipT base (layers_extent base []) := hcE
        simp [sliceRange, hq0, hqE]
    | cons l2 r2 =>
        rw [chunks_cons, chunks_cons]
        have h1 : clip_position base (l2 :: r2) false g =
            clip_position base (l2 :: r2) false (layers_extent base (l2 :: r2)) := hcE
        have h2 : clip_position base (l2 :: r2) false c0 =
            clip_position base (l2 :: r2) false ⟨0, 0⟩ := hc0
        rw [h1, h2]
  · rw [if_neg hlt]
    have hceq : c0 = g := point_eq_of_leb_not_ltb hle (by simpa using hlt)
    cases P with
    | nil =>
        rw [chunks_nil]
        simp only [List.join, List.append_nil]
        have hq0 : clipT base c0 = clipT base ⟨0, 0⟩ := hc0
        have hqE : clipT base g = clipT base (layers_extent base []) := hcE
        have hoffs : (clipT base ⟨0, 0⟩).offset =
            (clipT base (layers_extent base [])).offset := by
          rw [← hq0, ← hqE, hceq]
        simp only [sliceRange]
        rw [← hoffs]
        have hlen : ((base.take (clipT base ⟨0, 0⟩).offset).length) ≤
            (clipT base ⟨0, 0⟩).offset := by
          simp
        rw [List.drop_eq_nil_of_le hlen]
        rfl
    | cons l2 r2 =>
        rw [chunks_cons]
        have h1 : clip_position base (l2 :: r2) false
            (layers_extent base (l2 :: r2)) =
            clip_position base (l2 :: r2) false g := hcE.symm
        have h2 : clip_position base (l2 :: r2) false ⟨0, 0⟩ =
            clip_position base (l2 :: r2) false c0 := hc0.symm
        rw [h1, h2, ← hceq]
        rw [show (clip_position base (l2 :: r2) false c0).position = c0 from
          congrArg ClipResult.position hc0]
        have h4 : List.length l2.patch * 2 + 4 = List.length l2.patch * 2 + 3 + 1 := rfl
        rw [h4]
        simp [chunkGo, ltb_self]


theorem pfo_fold_miss : ∀ (cl : List MText) (g : Nat) (pos : Point) (off : Nat),
    off + (cl.map List.length).sum < g →
    (cl.foldl (pfo_step g) (pos, off, false)).1 =
      cl.foldl (fun p sl => p.traverse (extentT sl)) pos := by
  intro cl
  induction cl with
  | nil =>
    intro g pos off h
    rfl
  | cons sl cl ih =>
    intro g pos off h
    have hno : ¬ (g ≤ off + sl.length) := by
      simp at h
      omega
    simp only [List.foldl_cons, pfo_step]
    rw [if_neg (by simp), if_neg hno]
    apply ih
    simp at h ⊢
    omega

/-- C6: for every offset strictly greater than `size()`,
`position_for_offset` returns `extent()`.  The hypotheses are the layer
invariants (spec 8.1.2, 8.1.3): the chunk emission of the whole buffer
accounts for exactly `size()` code units and traverses to `extent()`. -/
theorem C6_position_for_offset_clamps (b : Buffer)
    (hsum : ((chunks_in_range b.base_text b.layers true ⟨0, 0⟩ b.extentB).map
      List.length).sum = b.sizeB)
    (hext : (chunks_in_range b.base_text b.layers true ⟨0, 0⟩ b.extentB).foldl
      (fun p sl => p.traverse (extentT sl)) ⟨0, 0⟩ = b.extentB)
    (o : Nat) (ho : b.sizeB < o) :
    b.pfo o = b.extentB := by
  unfold Buffer.pfo position_for_offset
  have h1 : layers_extent b.base_text b.layers = b.extentB := rfl
  rw [h1]
  rw [pfo_fold_miss _ o ⟨0, 0⟩ 0 (by rw [hsum]; omega)]
  exact hext

theorem C6_witness : (mkBuffer [97, 98, 99]).pfo 4 = (mkBuffer [97, 98, 99]).extentB :=
  C6_position_for_offset_clamps (mkBuffer [97, 98, 99]) (by decide) (by decide) 4 (by decide)

/-- C7: when the top layer is not the first layer, `reset_base_text`,
`flush_outstanding_changes`, `serialize_outstanding_changes` and
`deserialize_outstanding_changes` all return false and leave the buffer
(and the serializer) untouched; `deserialize_outstanding_changes` also
fails without mutation when the single first layer's patch is non-empty. -/
theorem C7_precondition_violations_no_mutation (b : Buffer) (h : 2 ≤ b.layers.length)
    (t : MText) (textSplice : MText → Point → Point → MText → MText)
    (patchSer : MPatch → List Nat) (ser : List Nat)
    (dpatch : MPatch) (dsize : Nat) (dext : Point) :
    reset_base_text b t = (false, b) ∧
    flush_outstanding_changes textSplice b = (false, b) ∧
    serialize_outstanding_changes patchSer b ser = (false, b, ser) ∧
    deserialize_outstanding_changes dpatch dsize dext b = (false, b) ∧
    (∀ (b2 : Buffer) (l : Layer), b2.layers = [l] → l.patch ≠ [] →
      deserialize_outstanding_changes dpatch dsize dext b2 = (false, b2)) := by
  obtain ⟨bt, ls⟩ := b
  cases ls with
  | nil => simp at h
  | cons l1 ls2 =>
    cases ls2 with
    | nil => simp at h
    | cons l2 rest =>
      refine ⟨rfl, rfl, rfl, rfl, ?_⟩
      intro b2 l hb2 hpatch
      obtain ⟨bt2, ls2b⟩ := b2
      simp only at hb2
      subst hb2
      simp [deserialize_outstanding_changes, hpatch]

theorem C7_witness :
    reset_base_text ⟨[97], [⟨[], ⟨0, 1⟩, 1, 0⟩, ⟨[], ⟨0, 1⟩, 1, 0⟩]⟩ [98] =
      (false, ⟨[97], [⟨[], ⟨0, 1⟩, 1, 0⟩, ⟨[], ⟨0, 1⟩, 1, 0⟩]⟩) ∧
    deserialize_outstanding_changes [] 0 ⟨0, 0⟩
        ⟨[97], [⟨[⟨⟨0, 0⟩, ⟨0, 0⟩, ⟨0, 0⟩, ⟨0, 1⟩, 0, [98], 0, 0⟩], ⟨0, 2⟩, 2, 0⟩]⟩ =
      (false, ⟨[97], [⟨[⟨⟨0, 0⟩, ⟨0, 0⟩, ⟨0, 0⟩, ⟨0, 1⟩, 0, [98], 0, 0⟩], ⟨0, 2⟩, 2, 0⟩]⟩) := by
  have h := C7_precondition_violations_no_mutation
    ⟨[97], [⟨[], ⟨0, 1⟩, 1, 0⟩, ⟨[], ⟨0, 1⟩, 1, 0⟩]⟩ (by decide) [98]
    (fun t _ _ _ => t) (fun _ => []) [] [] 0 ⟨0, 0⟩
  exact ⟨h.1, h.2.2.2.2
    ⟨[97], [⟨[⟨⟨0, 0⟩, ⟨0, 0⟩, ⟨0, 0⟩, ⟨0, 1⟩, 0, [98], 0, 0⟩], ⟨0, 2⟩, 2, 0⟩]⟩
    ⟨[⟨⟨0, 0⟩, ⟨0, 0⟩, ⟨0, 0⟩, ⟨0, 1⟩, 0, [98], 0, 0⟩], ⟨0, 2⟩, 2, 0⟩ rfl (by decide)⟩

/-- C8: `reset_base_text` succeeds whenever the top layer is the first
layer, even while that layer is pinned by live snapshots — the pin count
is never consulted — and a snapshot pinning the layer subsequently
observes the new base text. -/
theorem C8_reset_ignores_pins (t0 t : MText) (l : Layer)
    (hpin : 0 < l.snapshot_count) :
    (reset_base_text ⟨t0, [l]⟩ t).1 = true ∧
    (reset_base_text ⟨t0, [l]⟩ t).2.base_text = t ∧
    snapshot_text (reset_base_text ⟨t0, [l]⟩ t).2 1 = t := by
  refine ⟨rfl, rfl, ?_⟩
  show text_in_range t [{ l with patch := [], extent_ := extentT t, size_ := t.length }]
    true ⟨⟨0, 0⟩, extentT t⟩ = t
  have hmain := text_empty_head t
    { l with patch := [], extent_ := extentT t, size_ := t.length } [] true rfl rfl
    (by
      show clipT t (clipT t ⟨0, 0⟩).position = clipT t ⟨0, 0⟩
      rw [clipT_zeroP]
      exact clipT_zeroP t)
    (by
      show clipT t (clipT t (extentT t)).position = clipT t (extentT t)
      rw [clipT_extentT]
      exact clipT_extentT t)
    (by
      show Point.leb (clipT t ⟨0, 0⟩).position (clipT t (extentT t)).position = true
      rw [clipT_zeroP]
      exact leb_zero _)
  rw [hmain]
  show (chunks_in_range t [] false ⟨0, 0⟩ (extentT t)).join = t
  rw [chunks_nil, sliceRange_whole]
  simp

theorem C8_witness :
    (reset_base_text ⟨[97], [⟨[⟨⟨0, 0⟩, ⟨0, 0⟩, ⟨0, 0⟩, ⟨0, 1⟩, 0, [98], 0, 0⟩], ⟨0, 2⟩, 2, 3⟩]⟩
      [98, 10, 99]).1 = true ∧
    (reset_base_text ⟨[97], [⟨[⟨⟨0, 0⟩, ⟨0, 0⟩, ⟨0, 0⟩, ⟨0, 1⟩, 0, [98], 0, 0⟩], ⟨0, 2⟩, 2, 3⟩]⟩
      [98, 10, 99]).2.base_text = [98, 10, 99] ∧
    snapshot_text (reset_base_text
      ⟨[97], [⟨[⟨⟨0, 0⟩, ⟨0, 0⟩, ⟨0, 0⟩, ⟨0, 1⟩, 0, [98], 0, 0⟩], ⟨0, 2⟩, 2, 3⟩]⟩
      [98, 10, 99]).2 1 = [98, 10, 99] :=
  C8_reset_ignores_pins [97]
    [98, 10, 99] ⟨[⟨⟨0, 0⟩, ⟨0, 0⟩, ⟨0, 0⟩, ⟨0, 1⟩, 0, [98], 0, 0⟩], ⟨0, 2⟩, 2, 3⟩
    (by decide)


theorem fold_combine_eq_alt (f : MPatch → MPatch → Bool → MPatch) :
    ∀ (qs : List MPatch) (p : MPatch) (flag : Bool),
      fold_combine f p qs flag =
        (qs.zip (alt_flags flag qs.length)).foldl (fun acc qd => f acc qd.1 qd.2) p := by
  intro qs
  induction qs with
  | nil =>
    intro p flag
    rfl
  | cons q qs ih =>
    intro p flag
    rw [fold_combine, ih]
    simp [alt_flags]

/-- C1: when the last snapshot pinning a layer dies (pin count reaches 0)
and no layer above holds a pin, the collected upper layers are folded into
the surviving layer `L` one at a time — starting from the layer adjacent to
`L` and ending at the original top layer, i.e. in reverse of the top-down
collection order, which is the spec's "outermost-to-innermost" — with the
`Patch.combine` orientation alternating left-to-right first, right-to-left
next, and so on; every folded layer is discarded from the stack. -/
theorem C1_coalescence_order_and_alternation
    (f : MPatch → MPatch → Bool → MPatch) (b : Buffer) (m : Nat)
    (top : Layer) (rest : List Layer) (removed : List Layer) (L : Layer)
    (below : List Layer)
    (hdec : dec_snapshot_at b.layers (b.layers.length - m) = top :: rest)
    (hpin : ((top :: rest).getD (b.layers.length - m) ⟨[], ⟨0, 0⟩, 0, 0⟩).snapshot_count = 0)
    (htop : top.snapshot_count = 0)
    (hcol : collect_removable (top :: rest) = (removed, L :: below)) :
    snapshot_destroy f b m =
      ⟨b.base_text,
        { L with
          size_ := top.size_,
          extent_ := top.extent_,
          patch := spec_alt_fold f L.patch
            (removed.reverse.map (fun x => x.patch)) } :: below⟩ := by
  unfold snapshot_destroy
  dsimp only
  rw [hdec]
  simp only [hpin, htop, hcol, Nat.lt_irrefl, if_false]
  simp [fold_combine_eq_alt, spec_alt_fold, List.map_reverse]

theorem C1_witness :
    snapshot_destroy (fun p q ltr => if ltr then p ++ q else q ++ p)
        ⟨[97],
          [⟨[⟨⟨0, 0⟩, ⟨0, 0⟩, ⟨0, 0⟩, ⟨0, 1⟩, 0, [65], 0, 0⟩], ⟨0, 1⟩, 1, 0⟩,
            ⟨[⟨⟨0, 0⟩, ⟨0, 0⟩, ⟨0, 0⟩, ⟨0, 1⟩, 0, [66], 0, 0⟩], ⟨0, 1⟩, 1, 0⟩,
            ⟨[⟨⟨0, 0⟩, ⟨0, 0⟩, ⟨0, 0⟩, ⟨0, 1⟩, 0, [67], 0, 0⟩], ⟨0, 1⟩, 1, 1⟩]⟩ 1 =
      ⟨[97],
        [⟨[⟨⟨0, 0⟩, ⟨0, 0⟩, ⟨0, 0⟩, ⟨0, 1⟩, 0, [65], 0, 0⟩,
            ⟨⟨0, 0⟩, ⟨0, 0⟩, ⟨0, 0⟩, ⟨0, 1⟩, 0, [67], 0, 0⟩,
            ⟨⟨0, 0⟩, ⟨0, 0⟩, ⟨0, 0⟩, ⟨0, 1⟩, 0, [66], 0, 0⟩], ⟨0, 1⟩, 1, 0⟩]⟩ :=
  C1_coalescence_order_and_alternation
    (fun p q ltr => if ltr then p ++ q else q ++ p)
    ⟨[97],
      [⟨[⟨⟨0, 0⟩, ⟨0, 0⟩, ⟨0, 0⟩, ⟨0, 1⟩, 0, [65], 0, 0⟩], ⟨0, 1⟩, 1, 0⟩,
        ⟨[⟨⟨0, 0⟩, ⟨0, 0⟩, ⟨0, 0⟩, ⟨0, 1⟩, 0, [66], 0, 0⟩], ⟨0, 1⟩, 1, 0⟩,
        ⟨[⟨⟨0, 0⟩, ⟨0, 0⟩, ⟨0, 0⟩, ⟨0, 1⟩, 0, [67], 0, 0⟩], ⟨0, 1⟩, 1, 1⟩]⟩ 1
    ⟨[⟨⟨0, 0⟩, ⟨0, 0⟩, ⟨0, 0⟩, ⟨0, 1⟩, 0, [65], 0, 0⟩], ⟨0, 1⟩, 1, 0⟩
    [⟨[⟨⟨0, 0⟩, ⟨0, 0⟩, ⟨0, 0⟩, ⟨0, 1⟩, 0, [66], 0, 0⟩], ⟨0, 1⟩, 1, 0⟩,
      ⟨[⟨⟨0, 0⟩, ⟨0, 0⟩, ⟨0, 0⟩, ⟨0, 1⟩, 0, [67], 0, 0⟩], ⟨0, 1⟩, 1, 0⟩]
    [⟨[⟨⟨0, 0⟩, ⟨0, 0⟩, ⟨0, 0⟩, ⟨0, 1⟩, 0, [65], 0, 0⟩], ⟨0, 1⟩, 1, 0⟩,
      ⟨[⟨⟨0, 0⟩, ⟨0, 0⟩, ⟨0, 0⟩, ⟨0, 1⟩, 0, [66], 0, 0⟩], ⟨0, 1⟩, 1, 0⟩]
    ⟨[⟨⟨0, 0⟩, ⟨0, 0⟩, ⟨0, 0⟩, ⟨0, 1⟩, 0, [67], 0, 0⟩], ⟨0, 1⟩, 1, 0⟩ []
    (by decide) (by decide) (by decide) (by decide)

theorem extentT_cons_ne_zero (c : Nat) (cs : MText) : extentT (c :: cs) ≠ ⟨0, 0⟩ := by
  unfold extentT
  rw [show (c :: cs).length = cs.length + 1 from rfl, pfoT_succ]
  by_cases hc : c = 10
  · rw [if_pos hc, traverse_10]
    intro h
    simp at h
  · rw [if_neg hc, traverse_01]
    by_cases hr : (pfoT cs cs.length).row = 0
    · rw [if_pos hr]
      intro h
      simp at h
    · rw [if_neg hr]
      intro h
      rw [h] at hr
      exact hr rfl

theorem buffer_clip_mk (t : MText) (p : Point) : (mkBuffer t).clip_pos p = clipT t p := by
  show clip_position t [⟨[], extentT t, t.length, 0⟩] true p = clipT t p
  rw [clip_empty_head t _ [] true rfl]
  rfl

theorem chunks_mk (t : MText) :
    chunks_in_range t [⟨[], extentT t, t.length, 0⟩] true ⟨0, 0⟩ (extentT t) =
      if Point.ltb ⟨0, 0⟩ (extentT t) = true then [t] else [] := by
  rw [chunks_cons]
  rw [clip_empty_head t _ [] true rfl, clip_empty_head t _ [] true rfl]
  show chunkGo _ [] (clipT t (extentT t)).position _ (clipT t ⟨0, 0⟩).position
    (clipT t ⟨0, 0⟩).position
    (find_change_for_new_position [] (clipT t ⟨0, 0⟩).position) = _
  rw [clipT_extentT, clipT_zeroP, find_change_nil]
  have hf : ([] : MPatch).length * 2 + 4 = 2 + 2 := rfl
  rw [hf]
  show chunkGo _ [] (extentT t) (2 + 2) ⟨0, 0⟩ ⟨0, 0⟩ none = _
  rw [chunkGo_nil_patch]
  by_cases h : Point.ltb ⟨0, 0⟩ (extentT t) = true
  · rw [if_pos h, if_pos h]
    rw [Point.traverse_traversal ⟨0, 0⟩ (extentT t) (leb_zero _)]
    rw [chunks_nil, sliceRange_whole]
  · rw [if_neg h, if_neg h]

theorem buffer_pfo_mk (t : MText) (o : Nat) (ho : o ≤ t.length) :
    (mkBuffer t).pfo o = pfoT t o := by
  show ((chunks_in_range t [⟨[], extentT t, t.length, 0⟩] true ⟨0, 0⟩
      (layers_extent t [⟨[], extentT t, t.length, 0⟩])).foldl
    (pfo_step o) (⟨0, 0⟩, 0, false)).1 = pfoT t o
  rw [show layers_extent t [⟨[], extentT t, t.length, 0⟩] = extentT t from rfl]
  rw [chunks_mk]
  by_cases h : Point.ltb ⟨0, 0⟩ (extentT t) = true
  · rw [if_pos h]
    simp only [List.foldl_cons, List.foldl_nil, pfo_step]
    rw [if_neg (by simp), if_pos (by omega : o ≤ 0 + t.length)]
    simp [Point.traverse_zero_left]
  · rw [if_neg h]
    have ht : t = [] := by
      have h0 := eq_zero_of_not_ltb_zero (by simpa using h)
      cases t with
      | nil => rfl
      | cons c cs => exact absurd h0 (extentT_cons_ne_zero c cs)
    subst ht
    have ho0 : o = 0 := by simpa using ho
    subst ho0
    rfl

/-- C3 (counterexample): on the single-layer buffer over `"a\r\nb"`, the
offset 2 addresses the LF of the CRLF pair; `position_for_offset` yields
its point, but `clip_position` snaps that point back onto the CR, so the
round trip returns 1, not 2. -/
theorem C3_counterexample :
    2 ≤ (mkBuffer [97, 13, 10, 98]).sizeB ∧
    ¬ ((mkBuffer [97, 13, 10, 98]).clip_pos
        ((mkBuffer [97, 13, 10, 98]).pfo 2)).offset = 2 := by
  decide


theorem set_text_preserves (splice : MPatch → Point → Point → Point → MText → Nat → MPatch)
    (b : Buffer) (r : Range) (t : MText) :
    (set_text_in_range splice b r t).base_text = b.base_text ∧
    (set_text_in_range splice b r t).layers.length = b.layers.length ∧
    (set_text_in_range splice b r t).layers.tail = b.layers.tail := by
  obtain ⟨bt, ls⟩ := b
  cases ls with
  | nil => exact ⟨rfl, rfl, rfl⟩
  | cons l rest => exact ⟨rfl, rfl, rfl⟩

theorem snapshot_text_congr (b1 b2 : Buffer) (m : Nat)
    (hbase : b2.base_text = b1.base_text)
    (hlen : b2.layers.length = b1.layers.length)
    (htail : b2.layers.tail = b1.layers.tail)
    (hm : m < b1.layers.length) :
    snapshot_text b2 m = snapshot_text b1 m := by
  unfold snapshot_text snapshot_layers
  rw [hbase, hlen]
  have hdrop : b2.layers.drop (b1.layers.length - m) =
      b1.layers.drop (b1.layers.length - m) := by
    obtain ⟨x1, xs1, h1⟩ : ∃ x xs, b1.layers = x :: xs := by
      cases hh : b1.layers with
      | nil =>
        rw [hh] at hm
        simp at hm
      | cons a as => exact ⟨a, as, rfl⟩
    obtain ⟨x2, xs2, h2⟩ : ∃ x xs, b2.layers = x :: xs := by
      cases hh : b2.layers with
      | nil =>
        rw [hh, h1] at hlen
        simp at hlen
      | cons a as => exact ⟨a, as, rfl⟩
    rw [h1, h2] at htail
    simp at htail
    rw [h1, h2]
    rw [show (x1 :: xs1).length - m = ((x1 :: xs1).length - m - 1) + 1 from by
      rw [← h1]
      omega]
    rw [List.drop_succ_cons, List.drop_succ_cons, htail]
  rw [hdrop]

theorem snapshot_text_edits (splice : MPatch → Point → Point → Point → MText → Nat → MPatch)
    (es : List (Range × MText)) (b : Buffer) (m : Nat)
    (hm : m < b.layers.length) :
    snapshot_text (apply_edits splice es b) m = snapshot_text b m := by
  induction es generalizing b with
  | nil => rfl
  | cons e es ih =>
    have hp := set_text_preserves splice b e.1 e.2
    have hstep : apply_edits splice (e :: es) b =
        apply_edits splice es (set_text_in_range splice b e.1 e.2) := rfl
    rw [hstep, ih (set_text_in_range splice b e.1 e.2) (by rw [hp.2.1]; exact hm)]
    exact snapshot_text_congr b (set_text_in_range splice b e.1 e.2) m hp.1 hp.2.1 hp.2.2 hm

/-- C2: a snapshot returned by `create_snapshot` observes the text the
buffer had at the moment of its creation: for every sequence of later
edits through `set_text_in_range` (with any `Patch::splice` semantics),
the snapshot's `text()` still equals the buffer's `text()` right after
creation.  The hypotheses are the well-formedness invariants of the pinned
stack `P`: its cached extent agrees with the top layer's, its clipping is
idempotent at the two ends of the whole range, and the clipped origin does
not lie past the clipped extent. -/
theorem C2_snapshot_sees_creation_text
    (splice : MPatch → Point → Point → Point → MText → Nat → MPatch)
    (b b1 : Buffer) (m : Nat) (P : List Layer)
    (hb : b.layers ≠ [])
    (hcr : create_snapshot b = (b1, m))
    (hP : snapshot_layers b1 m = P)
    (hext : layers_extent b.base_text b1.layers = layers_extent b.base_text P)
    (hc0 : clip_position b.base_text P false
        (clip_position b.base_text P false ⟨0, 0⟩).position =
      clip_position b.base_text P false ⟨0, 0⟩)
    (hcE : clip_position b.base_text P false
        (clip_position b.base_text P false (layers_extent b.base_text P)).position =
      clip_position b.base_text P false (layers_extent b.base_text P))
    (hle : Point.leb (clip_position b.base_text P false ⟨0, 0⟩).position
        (clip_position b.base_text P false (layers_extent b.base_text P)).position = true)
    (es : List (Range × MText)) :
    snapshot_text (apply_edits splice es b1) m = b1.textB := by
  obtain ⟨bt, ls⟩ := b
  cases ls with
  | nil => exact absurd rfl hb
  | cons l rest =>
    unfold create_snapshot at hcr
    dsimp only at hcr
    by_cases hcond : rest ≠ [] ∧ l.patch = []
    · rw [if_pos hcond] at hcr
      obtain ⟨p, rr, rfl⟩ : ∃ p rr, rest = p :: rr := by
        cases rest with
        | nil => exact absurd rfl hcond.1
        | cons p rr => exact ⟨p, rr, rfl⟩
      have hb1 : b1 =
          ⟨bt, l :: { p with snapshot_count := p.snapshot_count + 1 } :: rr⟩ :=
        (congrArg Prod.fst hcr).symm
      have hm1 : m = rr.length + 1 := by
        have h2 := congrArg Prod.snd hcr
        simp at h2
        omega
      subst hb1
      have hm : m < (Buffer.mk bt
          (l :: { p with snapshot_count := p.snapshot_count + 1 } :: rr)).layers.length := by
        simp [hm1]
      rw [snapshot_text_edits splice es _ m hm]
      have hPval : P = { p with snapshot_count := p.snapshot_count + 1 } :: rr := by
        rw [← hP]
        unfold snapshot_layers
        simp [hm1]
      unfold snapshot_text Buffer.textB Buffer.extentB
      rw [hP]
      rw [decide_eq_false (by simp [hm1] : ¬ m = (Buffer.mk bt
        (l :: { p with snapshot_count := p.snapshot_count + 1 } :: rr)).layers.length)]
      show text_in_range bt P false ⟨⟨0, 0⟩, layers_extent bt P⟩ =
        text_in_range bt (l :: { p with snapshot_count := p.snapshot_count + 1 } :: rr)
          true ⟨⟨0, 0⟩, l.extent_⟩
      rw [← hPval]
      exact (text_empty_head bt l P true hcond.2 hext hc0 hcE hle).symm
    · rw [if_neg hcond] at hcr
      have hb1 : b1 = ⟨bt, (⟨[], l.extent_, l.size_, 0⟩ : Layer) ::
          { l with snapshot_count := l.snapshot_count + 1 } :: rest⟩ :=
        (congrArg Prod.fst hcr).symm
      have hm1 : m = rest.length + 1 := by
        have h2 := congrArg Prod.snd hcr
        simp at h2
        omega
      subst hb1
      have hm : m < (Buffer.mk bt ((⟨[], l.extent_, l.size_, 0⟩ : Layer) ::
          { l with snapshot_count := l.snapshot_count + 1 } :: rest)).layers.length := by
        simp [hm1]
      rw [snapshot_text_edits splice es _ m hm]
      have hPval : P = { l with snapshot_count := l.snapshot_count + 1 } :: rest := by
        rw [← hP]
        unfold snapshot_layers
        simp [hm1]
      unfold snapshot_text Buffer.textB Buffer.extentB
      rw [hP]
      rw [decide_eq_false (by simp [hm1] : ¬ m = (Buffer.mk bt
        ((⟨[], l.extent_, l.size_, 0⟩ : Layer) ::
          { l with snapshot_count := l.snapshot_count + 1 } :: rest)).layers.length)]
      show text_in_range bt P false ⟨⟨0, 0⟩, layers_extent bt P⟩ =
        text_in_range bt ((⟨[], l.extent_, l.size_, 0⟩ : Layer) ::
          { l with snapshot_count := l.snapshot_count + 1 } :: rest)
          true ⟨⟨0, 0⟩, l.extent_⟩
      rw [← hPval]
      exact (text_empty_head bt ⟨[], l.extent_, l.size_, 0⟩ P true rfl hext hc0 hcE hle).symm

theorem C2_witness :
    snapshot_text
      (apply_edits
        (fun _ st oldExt newExt t del =>
          [⟨st, st.traverse oldExt, st, st.traverse newExt, del, t, 0, 0⟩])
        [(⟨⟨0, 1⟩, ⟨0, 2⟩⟩, [66, 66])]
        (create_snapshot (mkBuffer [97, 98, 99])).1)
      (create_snapshot (mkBuffer [97, 98, 99])).2 =
    (create_snapshot (mkBuffer [97, 98, 99])).1.textB :=
  C2_snapshot_sees_creation_text
    (fun _ st oldExt newExt t del =>
      [⟨st, st.traverse oldExt, st, st.traverse newExt, del, t, 0, 0⟩])
    (mkBuffer [97, 98, 99])
    ⟨[97, 98, 99], [⟨[], ⟨0, 3⟩, 3, 0⟩, ⟨[], ⟨0, 3⟩, 3, 1⟩]⟩ 1
    [⟨[], ⟨0, 3⟩, 3, 1⟩]
    (by decide) (by decide) (by decide) (by decide) (by decide) (by decide) (by decide)
    [(⟨⟨0, 1⟩, ⟨0, 2⟩⟩, [66, 66])]


theorem Point.traverse_zero_right (p : Point) : Point.traverse p ⟨0, 0⟩ = p := by
  cases p with
  | mk r c => simp [Point.traverse]

theorem traverse_assoc (a b c : Point) :
    Point.traverse (Point.traverse a b) c = Point.traverse a (Point.traverse b c) := by
  cases a with
  | mk ar ac =>
    cases b with
    | mk br bc =>
      cases c with
      | mk cr cc =>
        by_cases hc : cr = 0
        · by_cases hb : br = 0
          · simp [Point.traverse, hb, hc]
            omega
          · simp [Point.traverse, hb, hc]
        · by_cases hb : br = 0
          · have hbc : ¬ (br + cr = 0) := by omega
            simp [Point.traverse, hb, hc, hbc]
          · have hbc : ¬ (br + cr = 0) := by omega
            simp [Point.traverse, hb, hc, hbc]
            omega

theorem pfoT_append_le : ∀ (a b : MText) (o : Nat), o ≤ a.length →
    pfoT (a ++ b) o = pfoT a o := by
  intro a
  induction a with
  | nil =>
    intro b o h
    have h0 : o = 0 := by simpa using h
    subst h0
    rw [pfoT_zero, pfoT_zero]
  | cons c a ih =>
    intro b o h
    cases o with
    | zero => rw [pfoT_zero, pfoT_zero]
    | succ o =>
      rw [List.cons_append, pfoT_succ, pfoT_succ, ih b o (by simpa using h)]

theorem pfoT_append_add : ∀ (a b : MText) (i : Nat),
    pfoT (a ++ b) (a.length + i) = Point.traverse (extentT a) (pfoT b i) := by
  intro a
  induction a with
  | nil =>
    intro b i
    simp only [List.nil_append, List.length_nil, Nat.zero_add]
    show pfoT b i = Point.traverse (pfoT [] 0) (pfoT b i)
    rw [pfoT_zero, Point.traverse_zero_left]
  | cons c a ih =>
    intro b i
    have h1 : (c :: a).length + i = (a.length + i) + 1 := by
      simp
      omega
    rw [h1, List.cons_append, pfoT_succ, ih b i]
    have h2 : extentT (c :: a) =
        Point.traverse (if c = 10 then ⟨1, 0⟩ else ⟨0, 1⟩) (extentT a) := by
      show pfoT (c :: a) (c :: a).length = _
      rw [show (c :: a).length = a.length + 1 from rfl, pfoT_succ]
      rfl
    rw [h2, traverse_assoc]

theorem pfo_fold_done (g : Nat) : ∀ (cl : List MText) (p : Point) (off : Nat),
    cl.foldl (pfo_step g) (p, off, true) = (p, off, true) := by
  intro cl
  induction cl with
  | nil =>
    intro p off
    rfl
  | cons sl cl ih =>
    intro p off
    rw [List.foldl_cons]
    have hstep : pfo_step g (p, off, true) sl = (p, off, true) := by
      simp [pfo_step]
    rw [hstep, ih]

theorem pfo_fold_hit : ∀ (cl : List MText) (o : Nat) (pos : Point) (off : Nat),
    off ≤ o → o ≤ off + (cl.map List.length).sum →
    (cl.foldl (pfo_step o) (pos, off, false)).1 =
      Point.traverse pos (pfoT cl.join (o - off)) := by
  intro cl
  induction cl with
  | nil =>
    intro o pos off h1 h2
    have h3 : o - off = 0 := by
      simp at h2
      omega
    rw [List.foldl_nil, h3]
    show pos = Point.traverse pos (pfoT [] 0)
    rw [pfoT_zero, Point.traverse_zero_right]
  | cons sl cl ih =>
    intro o pos off h1 h2
    rw [List.foldl_cons]
    by_cases hhit : o ≤ off + sl.length
    · have hstep : pfo_step o (pos, off, false) sl =
          (pos.traverse (pfoT sl (o - off)), off, true) := by
        simp [pfo_step, hhit]
      rw [hstep, pfo_fold_done]
      show pos.traverse (pfoT sl (o - off)) = _
      rw [show (sl :: cl).join = sl ++ cl.join from rfl]
      rw [pfoT_append_le sl cl.join (o - off) (by omega)]
    · have hstep : pfo_step o (pos, off, false) sl =
          (pos.traverse (extentT sl), off + sl.length, false) := by
        simp [pfo_step, hhit]
      rw [hstep, ih o _ (off + sl.length) (by omega) (by simp at h2 ⊢; omega)]
      rw [show (sl :: cl).join = sl ++ cl.join from rfl]
      have hsplit : o - off = sl.length + (o - (off + sl.length)) := by omega
      rw [hsplit, pfoT_append_add, ← traverse_assoc]

theorem buffer_pfo_flatten (b : Buffer) (o : Nat)
    (hsize : b.textB.length = b.sizeB) (ho : o ≤ b.sizeB) :
    b.pfo o = pfoT b.textB o := by
  have hjoin : b.textB = (chunks_in_range b.base_text b.layers true ⟨0, 0⟩
      (layers_extent b.base_text b.layers)).join := rfl
  have hbound : o ≤ 0 + ((chunks_in_range b.base_text b.layers true ⟨0, 0⟩
      (layers_extent b.base_text b.layers)).map List.length).sum := by
    have hlen : ((chunks_in_range b.base_text b.layers true ⟨0, 0⟩
        (layers_extent b.base_text b.layers)).map List.length).sum =
        b.textB.length := by
      rw [hjoin, List.length_join]
    rw [hlen]
    omega
  show ((chunks_in_range b.base_text b.layers true ⟨0, 0⟩
      (layers_extent b.base_text b.layers)).foldl
    (pfo_step o) (⟨0, 0⟩, 0, false)).1 = pfoT b.textB o
  rw [pfo_fold_hit _ o ⟨0, 0⟩ 0 (Nat.zero_le o) hbound, Point.traverse_zero_left,
    ← hjoin, Nat.sub_zero]

/-- C3 (amended): for every buffer state — any layer stack with any
outstanding edits — satisfying the layer invariants of spec 8.1 at the
queried offset (8.1.2: the cached `size()` equals the length of the
rendered text; 8.1.4–8.1.6: `clip_position` treats the queried point
exactly as the buffer's own rendered code units prescribe), and every
code-unit offset `o ≤ size()`, the round trip
`clip_position(position_for_offset(o)).offset` equals `o`, except when `o`
addresses the LF of a CRLF pair or the low surrogate of a surrogate pair
of the buffer's text, in which case it returns `o − 1` (the clipped,
canonical offset). -/
theorem C3_amended_round_trip (b : Buffer) (o : Nat)
    (ho : o ≤ b.sizeB)
    (hsize : b.textB.length = b.sizeB)
    (hclip : b.clip_pos (b.pfo o) = clipT b.textB (b.pfo o)) :
    (b.clip_pos (b.pfo o)).offset =
      if snapT b.textB o then o - 1 else o := by
  rw [hclip, buffer_pfo_flatten b o hsize ho,
    clip_pfoT b.textB o (by rw [hsize]; exact ho)]
  show canonT b.textB o = _
  exact canonT_eq_snap b.textB o (by rw [hsize]; exact ho)

theorem C3_witness :
    ((⟨[97, 98, 10, 99, 100],
        [⟨[], ⟨2, 1⟩, 8, 0⟩,
          ⟨[⟨⟨1, 1⟩, ⟨1, 1⟩, ⟨1, 1⟩, ⟨2, 0⟩, 0, [88, 13, 10], 0, 0⟩], ⟨2, 1⟩, 8, 1⟩]⟩ :
      Buffer).clip_pos
        ((⟨[97, 98, 10, 99, 100],
            [⟨[], ⟨2, 1⟩, 8, 0⟩,
              ⟨[⟨⟨1, 1⟩, ⟨1, 1⟩, ⟨1, 1⟩, ⟨2, 0⟩, 0, [88, 13, 10], 0, 0⟩], ⟨2, 1⟩, 8, 1⟩]⟩ :
          Buffer).pfo 6)).offset =
      if snapT (⟨[97, 98, 10, 99, 100],
          [⟨[], ⟨2, 1⟩, 8, 0⟩,
            ⟨[⟨⟨1, 1⟩, ⟨1, 1⟩, ⟨1, 1⟩, ⟨2, 0⟩, 0, [88, 13, 10], 0, 0⟩], ⟨2, 1⟩, 8, 1⟩]⟩ :
        Buffer).textB 6 then 6 - 1 else 6 :=
  C3_amended_round_trip
    ⟨[97, 98, 10, 99, 100],
      [⟨[], ⟨2, 1⟩, 8, 0⟩,
        ⟨[⟨⟨1, 1⟩, ⟨1, 1⟩, ⟨1, 1⟩, ⟨2, 0⟩, 0, [88, 13, 10], 0, 0⟩], ⟨2, 1⟩, 8, 1⟩]⟩
    6 (by decide) (by decide) (by decide)

end TB
